import Mathlib

/-!
# Formal model of `RMS/Routines/Image.py`

A shallow embedding of the numeric image-correction routines of the RMS
repository: gamma correction, brightness/contrast adjustment, level
adjustment, flat-field construction and application, and the
deinterlacing/lighten-blend pipeline.

Modelling conventions:
* a numpy 2-D array is a `List (List _)` of rows;
* float64 arithmetic is modelled by exact `ℚ` arithmetic (or `ℝ` where the
  source applies a real power `x ** (1/gamma)`);
* integer storage types are modelled by their bit width: a value of an
  unsigned `n`-bit type is an integer in `[0, 2^n - 1]`, and numpy's
  C-style `astype` casts are modelled explicitly (truncation toward zero
  for float sources, reduction modulo `2^n` for the unsigned target);
* slice assignments on a numpy buffer are modelled as whole-array
  functional updates whose right-hand sides read the pre-assignment
  buffer, which matches numpy's semantics for the slice assignments that
  occur in the source (the overlapping shift `d[:-1] = d[1:]` copies
  forward, row `r` being written from row `r+1` before row `r+1` is
  itself overwritten, hence behaves as if the source were snapshotted).
-/

namespace Image

/-- A two-dimensional image: a list of rows of samples. -/
abbrev Mat (α : Type) := List (List α)

/-- numpy shape of a 2-D array: (number of rows, number of columns),
reading the column count off the first row. -/
def shape {α : Type} (m : Mat α) : ℕ × ℕ := (m.length, (m.headD []).length)

/-- All samples of an image, row-major. -/
def entries {α : Type} (m : Mat α) : List α := m.flatten

/-- The image is rectangular with `c` columns (every row has length `c`),
which is true of every genuine numpy 2-D array. -/
abbrev Rect {α : Type} (m : Mat α) (c : ℕ) : Prop := ∀ row ∈ m, row.length = c

/-! ## numpy casts

`toInt16` is `astype(np.int16)` on integer data (two's-complement wrap into
`[-2^15, 2^15)`), `toUInt8` is `astype(np.uint8)` on integer data (wrap into
`[0, 2^8)`).  For float data, `truncQ` is the C float-to-integer conversion
(truncation toward zero) and `castU n` is `astype` to an unsigned `n`-bit
integer type (truncate toward zero, then wrap modulo `2^n`). -/

/-- `astype(np.int16)`: two's-complement wrap into `[-2^15, 2^15)`. -/
def toInt16 (x : ℤ) : ℤ := (x + 2 ^ 15) % 2 ^ 16 - 2 ^ 15

/-- `astype(np.uint8)` on integer data: wrap into `[0, 2^8)`. -/
def toUInt8 (x : ℤ) : ℤ := x % 2 ^ 8

/-- C float-to-integer conversion: truncation toward zero. -/
def truncQ (q : ℚ) : ℤ := if 0 ≤ q then ⌊q⌋ else ⌈q⌉

/-- `astype` from float to an unsigned `n`-bit integer type: truncate toward
zero, then wrap modulo `2^n`. -/
def castU (n : ℕ) (q : ℚ) : ℤ := truncQ q % 2 ^ n

/-- `np.clip(x, lo, hi)`. -/
def clip (x lo hi : ℚ) : ℚ := min (max x lo) hi

/-! ## Deinterlacing (`deinterlaceOdd`, `deinterlaceEven`)

Each numpy slice assignment of the source is one functional update. -/

/-- `deinterlaced_image[1::2, :] = deinterlaced_image[:-1:2, :]`:
every odd row is overwritten with the preceding even row. -/
def setOddRows (d : Mat ℤ) : Mat ℤ :=
  d.mapIdx fun r row => if r % 2 = 1 then d.getD (r - 1) [] else row

/-- `deinterlaced_image[:-1, :] = deinterlaced_image[1:, :]`:
every row but the last is overwritten with the row after it. -/
def shiftRowsUp (d : Mat ℤ) : Mat ℤ :=
  d.mapIdx fun r row => if r + 1 < d.length then d.getD (r + 1) [] else row

/-- `deinterlaced_image[-1, :] = 0`: the last row is zero-filled. -/
def zeroLastRow (d : Mat ℤ) : Mat ℤ :=
  d.mapIdx fun r row => if r + 1 = d.length then List.replicate row.length 0 else row

/-- `deinterlaceOdd`: duplicate each preceding even row into the odd rows,
then shift the whole frame up one row and zero-fill the last row. -/
def deinterlaceOdd (img : Mat ℤ) : Mat ℤ :=
  zeroLastRow (shiftRowsUp (setOddRows img))

/-- `deinterlaced_image[:-1:2, :] = deinterlaced_image[1::2, :]`:
every even row that has a following row is overwritten with that row. -/
def setEvenRows (d : Mat ℤ) : Mat ℤ :=
  d.mapIdx fun r row => if r % 2 = 0 ∧ r + 1 < d.length then d.getD (r + 1) [] else row

/-- `deinterlaceEven`: duplicate each following odd row into the even rows;
no frame shift. -/
def deinterlaceEven (img : Mat ℤ) : Mat ℤ :=
  setEvenRows img

/-! ## Lighten blend (`blendLighten`, `deinterlaceBlend`) -/

/-- One sample of `blendLighten`: `arr1` is cast to int16, `temp = arr1 - arr2`
is zeroed where positive, and `arr1 - temp` is cast to uint8.  The
subtraction is modelled at full integer width, which agrees with numpy
whenever the two inputs share an unsigned dtype (numpy promotes
`int16 - uintN` to a type wide enough for the exact difference there). -/
def blendLightenPix (x y : ℤ) : ℤ :=
  toUInt8 (toInt16 x - (if 0 < toInt16 x - y then 0 else toInt16 x - y))

/-- `blendLighten`: elementwise lighten blend of two arrays. -/
def blendLighten (arr1 arr2 : Mat ℤ) : Mat ℤ :=
  List.zipWith (List.zipWith blendLightenPix) arr1 arr2

/-- `deinterlaceBlend`: reconstruct the odd and even fields and blend them
with the lighten operator. -/
def deinterlaceBlend (img : Mat ℤ) : Mat ℤ :=
  blendLighten (deinterlaceOdd img) (deinterlaceEven img)


/-! ## Brightness and contrast (`applyBrightnessAndContrast`) -/

/-- The clipped floating intermediate of one sample of
`applyBrightnessAndContrast`: the contrast factor is
`f = 259*(contrast + 255) / (255*(259 - contrast))`, the brightness is
added, the contrast is applied around the midpoint 128, and the result is
clipped to `[0, 255]`. -/
def bcClipped (brightness contrast : ℚ) (p : ℤ) : ℚ :=
  clip ((259 * (contrast + 255)) / (255 * (259 - contrast)) *
    (((p : ℚ) + brightness) - 128) + 128) 0 255

/-- One sample of `applyBrightnessAndContrast`: the clipped intermediate,
cast back to the input's unsigned `nbits`-bit storage type. -/
def bcPix (nbits : ℕ) (brightness contrast : ℚ) (p : ℤ) : ℤ :=
  castU nbits (bcClipped brightness contrast p)

/-- `applyBrightnessAndContrast` on an image whose samples are stored in an
unsigned `nbits`-bit integer type. -/
def applyBrightnessAndContrast (img : Mat ℤ) (nbits : ℕ)
    (brightness contrast : ℚ) : Mat ℤ :=
  img.map (List.map (bcPix nbits brightness contrast))

/-! ## Level adjustment (`adjustLevels`)

Modelled over `ℝ` because the source raises samples to the real power
`1/gamma` (`np.power`; for the negative bases numpy maps to `nan` the model
uses `Real.rpow`, but no claim evaluates the power at a negative base). -/

/-- `np.clip` over `ℝ`. -/
noncomputable def clipR (x lo hi : ℝ) : ℝ := min (max x lo) hi

/-- C float-to-integer conversion over `ℝ`: truncation toward zero. -/
noncomputable def truncR (x : ℝ) : ℤ := if 0 ≤ x then ⌊x⌋ else ⌈x⌉

/-- `astype` from float to an unsigned `n`-bit integer type, over `ℝ`. -/
noncomputable def castUR (n : ℕ) (x : ℝ) : ℤ := truncR x % 2 ^ n

/-- The clipped floating intermediate of one sample of `adjustLevels`:
with `max_lvl = 2^nbits - 1`, the given levels are normalized by
`max_lvl`, the sample is normalized to `[0, 1]`, shifted by the normalized
`minv`, divided by the interval, raised to `1/gamma`, rescaled by
`max_lvl`, and clipped to `[0, max_lvl]`. -/
noncomputable def alClipped (nbits : ℕ) (minv gamma maxv : ℝ) (p : ℤ) : ℝ :=
  clipR ((((p : ℝ) / (2 ^ nbits - 1) - minv / (2 ^ nbits - 1)) /
      (maxv / (2 ^ nbits - 1) - minv / (2 ^ nbits - 1))) ^ (1 / gamma) *
    (2 ^ nbits - 1)) 0 (2 ^ nbits - 1)

/-- `adjustLevels`: when none of `minv`, `gamma`, `maxv` is given the input
is returned unchanged; otherwise every sample's clipped intermediate is
cast with `astype(np.uint8)` — to an 8-bit value regardless of `nbits`, as
the source's own WARNING comment records.  (A partially-`None` parameter
set raises a `TypeError` in the source and is not modelled; no claim
exercises it.) -/
noncomputable def adjustLevels (img : Mat ℤ) (minv gamma maxv : Option ℝ)
    (nbits : ℕ) : Mat ℤ :=
  match minv, gamma, maxv with
  | none, none, none => img
  | mv, g, xv =>
      img.map (List.map fun p =>
        castUR 8 (alClipped nbits (mv.getD 0) (g.getD 1) (xv.getD 0) p))

/-! ## Flat field (`FlatStruct`, `loadFlat`, `applyFlat`) -/

/-- Structure containing the flat field image and its average value. -/
structure FlatStruct where
  flat_img : Mat ℚ
  flat_avg : ℚ

/-- `np.median` of float data: the middle element of the sorted samples
when their count is odd, the mean of the two middle elements when it is
even. -/
def median (l : List ℚ) : ℚ :=
  let s := l.mergeSort fun a b => a ≤ b
  if l.length % 2 = 1 then s.getD (l.length / 2) 0
  else (s.getD (l.length / 2 - 1) 0 + s.getD (l.length / 2) 0) / 2

/-- Numeric core of `loadFlat`.  Reading the flat image file
(`scipy.misc.imread`) is an external collaborator outside the modelled
core; its decoded result is the matrix `raw` of nonnegative integer
samples.  They are converted to float64, `flat_avg` is their median, and
every sample strictly below `flat_avg / 2` is replaced by `flat_avg`. -/
def loadFlat (raw : Mat ℕ) : FlatStruct :=
  let flat_f : Mat ℚ := raw.map (List.map fun x : ℕ => (x : ℚ))
  let flat_avg := median (entries flat_f)
  { flat_img := flat_f.map (List.map fun x => if x < flat_avg / 2 then flat_avg else x)
    flat_avg := flat_avg }

/-- One sample of `applyFlat`: `flat_avg * img / flat_img` in float,
clipped to the valid range `[0, 2^nbits - 1]` of the image's unsigned
`nbits`-bit storage type (`np.iinfo(input_type).min/.max`), and cast back
to that type. -/
def flatPix (nbits : ℕ) (avg fv : ℚ) (p : ℤ) : ℤ :=
  castU nbits (clip (avg * (p : ℚ) / fv) 0 (2 ^ nbits - 1))

/-- `applyFlat`: when the image's shape differs from the flat's the image
is returned unchanged, otherwise the flat is applied samplewise. -/
def applyFlat (img : Mat ℤ) (nbits : ℕ) (fs : FlatStruct) : Mat ℤ :=
  if shape img ≠ shape fs.flat_img then img
  else List.zipWith (List.zipWith fun p fv => flatPix nbits fs.flat_avg fv p)
    img fs.flat_img

/-! ## Gamma correction (`gammaCorrection`)

Modelled over `ℝ` because of the real power `x ** (1.0/gamma)`. -/

/-- `gammaCorrection`: clamp the intensity at 0, normalize by the black
and white points, and gamma-expand only positive normalized values. -/
noncomputable def gammaCorrection (intensity gamma bp wp : ℝ) : ℝ :=
  if 0 < ((if intensity < 0 then 0 else intensity) - bp) / (wp - bp) then
    bp + (wp - bp) *
      (((if intensity < 0 then 0 else intensity) - bp) / (wp - bp)) ^ (1 / gamma)
  else bp

/-! ## General helper lemmas -/

theorem mem_entries {α : Type} {m : Mat α} {row : List α} (hrow : row ∈ m)
    {x : α} (hx : x ∈ row) : x ∈ entries m :=
  List.mem_flatten.2 ⟨row, hrow, hx⟩

theorem getD_mem {α : Type} {l : List α} {i : ℕ} (h : i < l.length) (d : α) :
    l.getD i d ∈ l := by
  rw [List.getD_eq_getElem l d h]
  exact List.getElem_mem h

theorem getD_getD_mem_entries {α : Type} {m : Mat α} {r j : ℕ}
    (hr : r < m.length) (hj : j < (m.getD r []).length) (d : α) :
    (m.getD r []).getD j d ∈ entries m :=
  mem_entries (getD_mem hr []) (getD_mem hj d)

theorem entries_map {α β : Type} (f : α → β) (m : Mat α) :
    entries (m.map (List.map f)) = (entries m).map f := by
  rw [entries, entries, List.map_flatten]

theorem shape_map {α β : Type} (f : α → β) (m : Mat α) :
    shape (m.map (List.map f)) = shape m := by
  cases m with
  | nil => rfl
  | cons r t => simp [shape]

theorem clip_mem {x lo hi : ℚ} (h : lo ≤ hi) :
    lo ≤ clip x lo hi ∧ clip x lo hi ≤ hi :=
  ⟨le_min (le_max_right x lo) h, min_le_right _ _⟩

theorem truncQ_nonneg {q : ℚ} (h : 0 ≤ q) : 0 ≤ truncQ q := by
  rw [truncQ, if_pos h]
  exact Int.floor_nonneg.2 h

theorem truncQ_le {q : ℚ} {n : ℤ} (h0 : 0 ≤ q) (h : q ≤ (n : ℚ)) :
    truncQ q ≤ n := by
  rw [truncQ, if_pos h0]
  have h1 : ((⌊q⌋ : ℤ) : ℚ) ≤ (n : ℚ) := le_trans (Int.floor_le q) h
  exact_mod_cast h1

theorem truncQ_intCast (p : ℤ) : truncQ ((p : ℚ)) = p := by
  rw [truncQ]
  split
  · exact Int.floor_intCast p
  · exact Int.ceil_intCast p

theorem castU_eq_truncQ {n : ℕ} {q : ℚ} (h0 : 0 ≤ truncQ q)
    (h1 : truncQ q < 2 ^ n) : castU n q = truncQ q :=
  Int.emod_eq_of_lt h0 h1

theorem clipR_mem {x lo hi : ℝ} (h : lo ≤ hi) :
    lo ≤ clipR x lo hi ∧ clipR x lo hi ≤ hi :=
  ⟨le_min (le_max_right x lo) h, min_le_right _ _⟩

theorem truncR_nonneg {x : ℝ} (h : 0 ≤ x) : 0 ≤ truncR x := by
  rw [truncR, if_pos h]
  exact Int.floor_nonneg.2 h

theorem truncR_le {x : ℝ} {n : ℤ} (h0 : 0 ≤ x) (h : x ≤ (n : ℝ)) :
    truncR x ≤ n := by
  rw [truncR, if_pos h0]
  have h1 : ((⌊x⌋ : ℤ) : ℝ) ≤ (n : ℝ) := le_trans (Int.floor_le x) h
  exact_mod_cast h1

theorem castUR_eq_truncR {n : ℕ} {x : ℝ} (h0 : 0 ≤ truncR x)
    (h1 : truncR x < 2 ^ n) : castUR n x = truncR x :=
  Int.emod_eq_of_lt h0 h1

/-- The cast of `bcPix` never wraps when the storage type has at least
8 bits, and its result lies in `[0, 255]`. -/
theorem bcPix_range (nbits : ℕ) (hn : 8 ≤ nbits) (brightness contrast : ℚ)
    (p : ℤ) :
    bcPix nbits brightness contrast p = truncQ (bcClipped brightness contrast p) ∧
    0 ≤ bcPix nbits brightness contrast p ∧
    bcPix nbits brightness contrast p ≤ 255 := by
  have hq : 0 ≤ bcClipped brightness contrast p ∧
      bcClipped brightness contrast p ≤ 255 := by
    rw [bcClipped]
    exact clip_mem (by norm_num)
  have h0 : 0 ≤ truncQ (bcClipped brightness contrast p) := truncQ_nonneg hq.1
  have h255 : truncQ (bcClipped brightness contrast p) ≤ 255 :=
    truncQ_le hq.1 (by exact_mod_cast hq.2)
  have hlt : truncQ (bcClipped brightness contrast p) < 2 ^ nbits := by
    have hp : (2:ℤ) ^ 8 ≤ 2 ^ nbits := pow_le_pow_right₀ (by norm_num) hn
    omega
  have hcast : bcPix nbits brightness contrast p =
      truncQ (bcClipped brightness contrast p) := by
    rw [bcPix]
    exact castU_eq_truncQ h0 hlt
  exact ⟨hcast, hcast ▸ h0, hcast ▸ h255⟩

theorem zipWith_zipWith_getD {α β γ : Type} (f : α → β → γ) (a : Mat α)
    (b : Mat β) (da : α) (db : β) (dc : γ) {r j : ℕ}
    (hr1 : r < a.length) (hr2 : r < b.length)
    (hj1 : j < (a.getD r []).length) (hj2 : j < (b.getD r []).length) :
    ((List.zipWith (List.zipWith f) a b).getD r []).getD j dc =
      f ((a.getD r []).getD j da) ((b.getD r []).getD j db) := by
  have e1 : List.getD a r [] = a[r] := List.getD_eq_getElem a [] hr1
  have e2 : List.getD b r [] = b[r] := List.getD_eq_getElem b [] hr2
  rw [e1] at hj1
  rw [e2] at hj2
  have hr : r < (List.zipWith (List.zipWith f) a b).length := by
    rw [List.length_zipWith]
    exact lt_min hr1 hr2
  have hj : j < (List.zipWith f a[r] b[r]).length := by
    rw [List.length_zipWith]
    exact lt_min hj1 hj2
  rw [List.getD_eq_getElem _ _ hr]
  simp only [List.getElem_zipWith]
  rw [List.getD_eq_getElem _ _ hj]
  simp only [List.getElem_zipWith]
  rw [e1, e2, List.getD_eq_getElem _ _ hj1, List.getD_eq_getElem _ _ hj2]

theorem map_map_getD {α β : Type} (f : α → β) (m : Mat α) (da : α) (db : β)
    {r j : ℕ} (hr : r < m.length) (hj : j < (m.getD r []).length) :
    ((m.map (List.map f)).getD r []).getD j db = f ((m.getD r []).getD j da) := by
  have e1 : m.getD r [] = m[r] := List.getD_eq_getElem m [] hr
  rw [e1] at hj
  have hr2 : r < (m.map (List.map f)).length := by rwa [List.length_map]
  rw [List.getD_eq_getElem _ _ hr2]
  simp only [List.getElem_map]
  have hj2 : j < (List.map f m[r]).length := by rwa [List.length_map]
  rw [List.getD_eq_getElem _ _ hj2]
  simp only [List.getElem_map]
  rw [e1, List.getD_eq_getElem _ _ hj]

theorem zipWith_eq_left {α β : Type} (f : α → β → α) (a : List α) (b : List β)
    (hlen : a.length = b.length)
    (h : ∀ (i : ℕ) (h1 : i < a.length) (h2 : i < b.length), f a[i] b[i] = a[i]) :
    List.zipWith f a b = a := by
  apply List.ext_getElem
  · rw [List.length_zipWith, hlen, min_self]
  · intro i h1 h2
    rw [List.getElem_zipWith]
    exact h i h2 (hlen ▸ h2)

theorem median_nonneg {l : List ℚ} (h : ∀ x ∈ l, 0 ≤ x) : 0 ≤ median l := by
  rcases eq_or_ne l [] with hnil | hne
  · subst hnil
    simp [median]
  · have hlen : 0 < l.length := List.length_pos.2 hne
    have hmem : ∀ i, i < l.length →
        0 ≤ (l.mergeSort fun a b => a ≤ b).getD i 0 := by
      intro i hi
      have hi2 : i < (l.mergeSort fun a b => a ≤ b).length := by
        rwa [List.length_mergeSort]
      exact h _ (List.mem_mergeSort.1 (getD_mem hi2 0))
    simp only [median]
    split
    · exact hmem _ (by omega)
    · have h1 := hmem (l.length / 2 - 1) (by omega)
      have h2 := hmem (l.length / 2) (by omega)
      linarith

/-- Applying the flat sample `avg` to an in-range sample is the identity
(`avg * p / avg = p`, the clip and the cast-back then act as identities). -/
theorem flatPix_id {nbits : ℕ} {avg : ℚ} {p : ℤ} (hnz : avg ≠ 0)
    (h0 : 0 ≤ p) (h1 : p ≤ 2 ^ nbits - 1) : flatPix nbits avg avg p = p := by
  rw [flatPix]
  have hdiv : avg * (p : ℚ) / avg = (p : ℚ) := mul_div_cancel_left₀ _ hnz
  rw [hdiv]
  have h0q : (0:ℚ) ≤ (p : ℚ) := by exact_mod_cast h0
  have hcast : ((p : ℤ) : ℚ) ≤ 2 ^ nbits - 1 := by exact_mod_cast h1
  have hclip : clip (p : ℚ) 0 (2 ^ nbits - 1) = (p : ℚ) := by
    rw [clip, max_eq_left h0q, min_eq_left hcast]
  rw [hclip, castU, truncQ_intCast]
  have hpow : (0:ℤ) < 2 ^ nbits := pow_pos (by norm_num) nbits
  exact Int.emod_eq_of_lt h0 (by omega)

/-! ### Row-level characterization of the deinterlacers (helper lemmas) -/

theorem length_setOddRows (d : Mat ℤ) : (setOddRows d).length = d.length :=
  List.length_mapIdx

theorem length_shiftRowsUp (d : Mat ℤ) : (shiftRowsUp d).length = d.length :=
  List.length_mapIdx

theorem length_zeroLastRow (d : Mat ℤ) : (zeroLastRow d).length = d.length :=
  List.length_mapIdx

theorem length_deinterlaceOdd (img : Mat ℤ) :
    (deinterlaceOdd img).length = img.length := by
  simp [deinterlaceOdd, length_zeroLastRow, length_shiftRowsUp, length_setOddRows]

theorem length_setEvenRows (d : Mat ℤ) : (setEvenRows d).length = d.length :=
  List.length_mapIdx

theorem length_deinterlaceEven (img : Mat ℤ) :
    (deinterlaceEven img).length = img.length :=
  List.length_mapIdx

theorem setOddRows_getD (d : Mat ℤ) {r : ℕ} (hr : r < d.length) :
    (setOddRows d).getD r [] =
      if r % 2 = 1 then d.getD (r - 1) [] else d.getD r [] := by
  have hr' : r < (setOddRows d).length := by rwa [length_setOddRows]
  rw [List.getD_eq_getElem _ _ hr']
  rw [List.getD_eq_getElem _ _ hr]
  simp only [setOddRows, List.getElem_mapIdx]

theorem shiftRowsUp_getD (d : Mat ℤ) {r : ℕ} (hr : r < d.length) :
    (shiftRowsUp d).getD r [] =
      if r + 1 < d.length then d.getD (r + 1) [] else d.getD r [] := by
  have hr' : r < (shiftRowsUp d).length := by rwa [length_shiftRowsUp]
  rw [List.getD_eq_getElem _ _ hr']
  rw [List.getD_eq_getElem _ _ hr]
  simp only [shiftRowsUp, List.getElem_mapIdx]

theorem zeroLastRow_getD (d : Mat ℤ) {r : ℕ} (hr : r < d.length) :
    (zeroLastRow d).getD r [] =
      if r + 1 = d.length then List.replicate (d.getD r []).length 0
      else d.getD r [] := by
  have hr' : r < (zeroLastRow d).length := by rwa [length_zeroLastRow]
  rw [List.getD_eq_getElem _ _ hr']
  rw [List.getD_eq_getElem _ _ hr]
  simp only [zeroLastRow, List.getElem_mapIdx]

theorem setEvenRows_getD (d : Mat ℤ) {r : ℕ} (hr : r < d.length) :
    (setEvenRows d).getD r [] =
      if r % 2 = 0 ∧ r + 1 < d.length then d.getD (r + 1) [] else d.getD r [] := by
  have hr' : r < (setEvenRows d).length := by
    simpa [setEvenRows] using hr
  rw [List.getD_eq_getElem _ _ hr']
  rw [List.getD_eq_getElem _ _ hr]
  simp only [setEvenRows, List.getElem_mapIdx]

/-- Rows of `deinterlaceOdd` other than the last: even rows keep the
input's row, odd rows take the input's next row. -/
theorem deinterlaceOdd_getD (img : Mat ℤ) {r : ℕ} (hr : r + 1 < img.length) :
    (deinterlaceOdd img).getD r [] =
      if r % 2 = 0 then img.getD r [] else img.getD (r + 1) [] := by
  have hr0 : r < img.length := Nat.lt_of_succ_lt hr
  have h1 : r < (shiftRowsUp (setOddRows img)).length := by
    rwa [length_shiftRowsUp, length_setOddRows]
  rw [deinterlaceOdd, zeroLastRow_getD _ h1]
  rw [length_shiftRowsUp, length_setOddRows] at h1 ⊢
  have hne : ¬ (r + 1 = img.length) := Nat.ne_of_lt hr
  rw [if_neg hne]
  have h2 : r < (setOddRows img).length := by rwa [length_setOddRows]
  rw [shiftRowsUp_getD _ h2]
  rw [length_setOddRows]
  rw [if_pos hr]
  have h3 : r + 1 < (setOddRows img).length := by rwa [length_setOddRows]
  have h3' : r + 1 < img.length := hr
  rw [setOddRows_getD _ h3']
  rcases Nat.even_or_odd r with he | ho
  · have hmod : r % 2 = 0 := Nat.even_iff.mp he
    have hmod1 : (r + 1) % 2 = 1 := by omega
    rw [if_pos hmod1, if_pos hmod]
    simp
  · have hmod : r % 2 = 1 := Nat.odd_iff.mp ho
    have hmod1 : ¬ ((r + 1) % 2 = 1) := by omega
    rw [if_neg hmod1, if_neg (by omega : ¬ (r % 2 = 0))]

/-- The last row of `deinterlaceOdd` is all zeros. -/
theorem deinterlaceOdd_last (img : Mat ℤ) {x : ℤ}
    (hx : x ∈ (deinterlaceOdd img).getD (img.length - 1) []) : x = 0 := by
  rcases Nat.eq_zero_or_pos img.length with h0 | hpos
  · rw [deinterlaceOdd] at hx
    have : (zeroLastRow (shiftRowsUp (setOddRows img))).length = 0 := by
      rw [length_zeroLastRow, length_shiftRowsUp, length_setOddRows, h0]
    rw [List.length_eq_zero] at this
    rw [this] at hx
    simp at hx
  · have hr : img.length - 1 < img.length := by omega
    have h1 : img.length - 1 < (shiftRowsUp (setOddRows img)).length := by
      rwa [length_shiftRowsUp, length_setOddRows]
    rw [deinterlaceOdd, zeroLastRow_getD _ h1] at hx
    rw [length_shiftRowsUp, length_setOddRows] at hx
    rw [if_pos (by omega : img.length - 1 + 1 = img.length)] at hx
    exact List.eq_of_mem_replicate hx

/-- Rows of `deinterlaceEven`: even rows with a following row take the
input's next row; all other rows keep the input's row. -/
theorem deinterlaceEven_getD (img : Mat ℤ) {r : ℕ} (hr : r < img.length) :
    (deinterlaceEven img).getD r [] =
      if r % 2 = 0 ∧ r + 1 < img.length then img.getD (r + 1) []
      else img.getD r [] :=
  setEvenRows_getD img hr

theorem rect_setOddRows {d : Mat ℤ} {c : ℕ} (h : Rect d c) :
    Rect (setOddRows d) c := by
  intro row hrow
  rw [List.mem_iff_getElem] at hrow
  obtain ⟨r, hr, hrow⟩ := hrow
  simp only [setOddRows, List.getElem_mapIdx] at hrow
  rw [length_setOddRows] at hr
  subst hrow
  split
  · exact h _ (getD_mem (by omega) [])
  · exact h _ (List.getElem_mem hr)

theorem rect_shiftRowsUp {d : Mat ℤ} {c : ℕ} (h : Rect d c) :
    Rect (shiftRowsUp d) c := by
  intro row hrow
  rw [List.mem_iff_getElem] at hrow
  obtain ⟨r, hr, hrow⟩ := hrow
  simp only [shiftRowsUp, List.getElem_mapIdx] at hrow
  rw [length_shiftRowsUp] at hr
  subst hrow
  split
  · exact h _ (getD_mem (by omega) [])
  · exact h _ (List.getElem_mem hr)

theorem rect_zeroLastRow {d : Mat ℤ} {c : ℕ} (h : Rect d c) :
    Rect (zeroLastRow d) c := by
  intro row hrow
  rw [List.mem_iff_getElem] at hrow
  obtain ⟨r, hr, hrow⟩ := hrow
  simp only [zeroLastRow, List.getElem_mapIdx] at hrow
  rw [length_zeroLastRow] at hr
  subst hrow
  split
  · rw [List.length_replicate]
    exact h _ (List.getElem_mem hr)
  · exact h _ (List.getElem_mem hr)

theorem rect_setEvenRows {d : Mat ℤ} {c : ℕ} (h : Rect d c) :
    Rect (setEvenRows d) c := by
  intro row hrow
  rw [List.mem_iff_getElem] at hrow
  obtain ⟨r, hr, hrow⟩ := hrow
  simp only [setEvenRows, List.getElem_mapIdx] at hrow
  rw [length_setEvenRows] at hr
  subst hrow
  split
  · exact h _ (getD_mem (by omega) [])
  · exact h _ (List.getElem_mem hr)

theorem rect_deinterlaceOdd {img : Mat ℤ} {c : ℕ} (h : Rect img c) :
    Rect (deinterlaceOdd img) c :=
  rect_zeroLastRow (rect_shiftRowsUp (rect_setOddRows h))

theorem rect_deinterlaceEven {img : Mat ℤ} {c : ℕ} (h : Rect img c) :
    Rect (deinterlaceEven img) c :=
  rect_setEvenRows h

/-- Every sample of `deinterlaceOdd img` is `0` or a sample of `img`. -/
theorem deinterlaceOdd_entry_cases {img : Mat ℤ} {x : ℤ}
    (hx : x ∈ entries (deinterlaceOdd img)) : x = 0 ∨ x ∈ entries img := by
  rw [entries, List.mem_flatten] at hx
  obtain ⟨row, hrow, hxr⟩ := hx
  rw [List.mem_iff_getElem] at hrow
  obtain ⟨r, hr, hrow⟩ := hrow
  rw [length_deinterlaceOdd] at hr
  have hget : (deinterlaceOdd img).getD r [] = row := by
    rw [List.getD_eq_getElem _ _ (by rwa [length_deinterlaceOdd])]
    exact hrow
  rcases Nat.lt_or_ge (r + 1) img.length with hlt | hge
  · right
    rw [deinterlaceOdd_getD img hlt] at hget
    split at hget
    · exact mem_entries (hget ▸ getD_mem (Nat.lt_of_succ_lt hlt) []) hxr
    · exact mem_entries (hget ▸ getD_mem hlt []) hxr
  · left
    have hreq : r = img.length - 1 := by omega
    apply deinterlaceOdd_last img (x := x)
    rw [← hreq, hget]
    exact hxr

/-- Every sample of `deinterlaceEven img` is a sample of `img`. -/
theorem deinterlaceEven_entry_cases {img : Mat ℤ} {x : ℤ}
    (hx : x ∈ entries (deinterlaceEven img)) : x ∈ entries img := by
  rw [entries, List.mem_flatten] at hx
  obtain ⟨row, hrow, hxr⟩ := hx
  rw [List.mem_iff_getElem] at hrow
  obtain ⟨r, hr, hrow⟩ := hrow
  rw [length_deinterlaceEven] at hr
  have hget : (deinterlaceEven img).getD r [] = row := by
    rw [List.getD_eq_getElem _ _ (by rwa [length_deinterlaceEven])]
    exact hrow
  rw [deinterlaceEven_getD img hr] at hget
  split at hget
  · next hcond => exact mem_entries (hget ▸ getD_mem hcond.2 []) hxr
  · exact mem_entries (hget ▸ getD_mem hr []) hxr

/-- For 8-bit samples the lighten blend is the elementwise maximum:
the int16 cast is the identity, the intermediate difference lies in
`[-255, 255]`, and the final uint8 cast is the identity on the result. -/
theorem blendLightenPix_eq_max {x y : ℤ} (hx0 : 0 ≤ x) (hx : x ≤ 255)
    (hy0 : 0 ≤ y) (hy : y ≤ 255) : blendLightenPix x y = max x y := by
  have h16 : toInt16 x = x := by
    rw [toInt16]
    omega
  rcases le_total x y with h | h
  · rw [max_eq_right h, blendLightenPix, h16, toUInt8]
    split_ifs <;> omega
  · rw [max_eq_left h, blendLightenPix, h16, toUInt8]
    split_ifs <;> omega

/-- Samples of a blend are values of `blendLightenPix` at paired positions. -/
theorem blendLighten_getD (a b : Mat ℤ) {r j : ℕ}
    (hr1 : r < a.length) (hr2 : r < b.length)
    (hj1 : j < (a.getD r []).length) (hj2 : j < (b.getD r []).length) :
    ((blendLighten a b).getD r []).getD j 0 =
      blendLightenPix ((a.getD r []).getD j 0) ((b.getD r []).getD j 0) := by
  have e1 : List.getD a r [] = a[r] := List.getD_eq_getElem a [] hr1
  have e2 : List.getD b r [] = b[r] := List.getD_eq_getElem b [] hr2
  rw [e1] at hj1
  rw [e2] at hj2
  have hr : r < (blendLighten a b).length := by
    rw [blendLighten, List.length_zipWith]
    exact lt_min hr1 hr2
  have hj : j < (List.zipWith blendLightenPix a[r] b[r]).length := by
    rw [List.length_zipWith]
    exact lt_min hj1 hj2
  rw [List.getD_eq_getElem _ _ hr]
  simp only [blendLighten, List.getElem_zipWith]
  rw [List.getD_eq_getElem _ _ hj]
  simp only [List.getElem_zipWith]
  rw [e1, e2, List.getD_eq_getElem _ _ hj1, List.getD_eq_getElem _ _ hj2]

/-! ## Claim theorems for the deinterlacer and the blend -/

/-- **C2**: `deinterlaceOdd` keeps the row count; row `r` of the output is
input row `r` for even `r < n - 1`, input row `r + 1` for odd `r < n - 1`,
and the final row is zero-filled. -/
theorem deinterlaceOdd_spec (img : Mat ℤ) :
    (deinterlaceOdd img).length = img.length ∧
    (∀ r, r + 1 < img.length →
      (deinterlaceOdd img).getD r [] =
        if r % 2 = 0 then img.getD r [] else img.getD (r + 1) []) ∧
    (∀ x ∈ (deinterlaceOdd img).getD (img.length - 1) [], x = 0) :=
  ⟨length_deinterlaceOdd img, fun _ hr => deinterlaceOdd_getD img hr,
   fun _ hx => deinterlaceOdd_last img hx⟩

/-- Witness for **C2** on a concrete 4-row image. -/
theorem deinterlaceOdd_spec_witness :
    (deinterlaceOdd [[(1:ℤ), 2], [3, 4], [5, 6], [7, 8]]).getD 1 [] = [5, 6] ∧
    ∀ x ∈ (deinterlaceOdd [[(1:ℤ), 2], [3, 4], [5, 6], [7, 8]]).getD 3 [], x = 0 := by
  have h := deinterlaceOdd_spec [[(1:ℤ), 2], [3, 4], [5, 6], [7, 8]]
  constructor
  · have h1 := h.2.1 1 (by decide)
    rw [h1]
    decide
  · intro x hx
    exact h.2.2 x (by simpa using hx)

/-- **C3**: `deinterlaceEven` keeps the row count; every even row with a
following row takes the input value of that following row, every other row
(odd rows, and a final even row without successor) is unchanged; no frame
shift is applied. -/
theorem deinterlaceEven_spec (img : Mat ℤ) :
    (deinterlaceEven img).length = img.length ∧
    ∀ r, r < img.length →
      (deinterlaceEven img).getD r [] =
        if r % 2 = 0 ∧ r + 1 < img.length then img.getD (r + 1) []
        else img.getD r [] :=
  ⟨length_deinterlaceEven img, fun _ hr => deinterlaceEven_getD img hr⟩

/-- Witness for **C3** on a concrete 3-row image (odd row count, so the
last row is even-indexed and must stay unchanged). -/
theorem deinterlaceEven_spec_witness :
    (deinterlaceEven [[(1:ℤ)], [2], [3]]).getD 0 [] = [2] ∧
    (deinterlaceEven [[(1:ℤ)], [2], [3]]).getD 1 [] = [2] ∧
    (deinterlaceEven [[(1:ℤ)], [2], [3]]).getD 2 [] = [3] := by
  have h := (deinterlaceEven_spec [[(1:ℤ)], [2], [3]]).2
  refine ⟨?_, ?_, ?_⟩
  · rw [h 0 (by decide)]
    decide
  · rw [h 1 (by decide)]
    decide
  · rw [h 2 (by decide)]
    decide

/-- **C1**: on an 8-bit image, the blended deinterlace equals the
elementwise maximum of the odd and even reconstructions. -/
theorem deinterlaceBlend_eq_max (img : Mat ℤ) (cols : ℕ)
    (hrect : Rect img cols)
    (h8 : ∀ x ∈ entries img, 0 ≤ x ∧ x ≤ 255)
    {r j : ℕ} (hr : r < img.length) (hj : j < cols) :
    ((deinterlaceBlend img).getD r []).getD j 0 =
      max (((deinterlaceOdd img).getD r []).getD j 0)
          (((deinterlaceEven img).getD r []).getD j 0) := by
  have hO : ∀ x ∈ entries (deinterlaceOdd img), 0 ≤ x ∧ x ≤ 255 := by
    intro x hx
    rcases deinterlaceOdd_entry_cases hx with h0 | hmem
    · subst h0
      exact ⟨le_refl 0, by norm_num⟩
    · exact h8 x hmem
  have hE : ∀ x ∈ entries (deinterlaceEven img), 0 ≤ x ∧ x ≤ 255 :=
    fun x hx => h8 x (deinterlaceEven_entry_cases hx)
  have hrO : r < (deinterlaceOdd img).length := by rwa [length_deinterlaceOdd]
  have hrE : r < (deinterlaceEven img).length := by rwa [length_deinterlaceEven]
  have hjO : j < ((deinterlaceOdd img).getD r []).length := by
    rw [rect_deinterlaceOdd hrect _ (getD_mem hrO [])]
    exact hj
  have hjE : j < ((deinterlaceEven img).getD r []).length := by
    rw [rect_deinterlaceEven hrect _ (getD_mem hrE [])]
    exact hj
  rw [deinterlaceBlend, blendLighten_getD _ _ hrO hrE hjO hjE]
  have hxm := hO _ (getD_getD_mem_entries hrO hjO 0)
  have hym := hE _ (getD_getD_mem_entries hrE hjE 0)
  exact blendLightenPix_eq_max hxm.1 hxm.2 hym.1 hym.2

/-- Witness for **C1** on a concrete 2x2 8-bit image. -/
theorem deinterlaceBlend_eq_max_witness :
    ((deinterlaceBlend [[(10:ℤ), 20], [30, 40]]).getD 0 []).getD 0 0 = 30 := by
  have h := deinterlaceBlend_eq_max [[(10:ℤ), 20], [30, 40]] 2
    (by decide) (by decide) (r := 0) (j := 0) (by decide) (by decide)
  rw [h]
  decide

/-- **C8** (amended): for 8-bit unsigned inputs the lighten blend's signed
intermediate cannot underflow and the uint8 cast-back is the identity on
the result, so the output is the elementwise maximum, within the 8-bit
range.  (As stated for arbitrary unsigned storage types the claim is
false: see `blendLighten_uint16_counterexample`.) -/
theorem blendLighten_uint8_spec (arr1 arr2 : Mat ℤ)
    (h1 : ∀ x ∈ entries arr1, 0 ≤ x ∧ x ≤ 255)
    (h2 : ∀ x ∈ entries arr2, 0 ≤ x ∧ x ≤ 255)
    {r j : ℕ} (hr1 : r < arr1.length) (hr2 : r < arr2.length)
    (hj1 : j < (arr1.getD r []).length) (hj2 : j < (arr2.getD r []).length) :
    ((blendLighten arr1 arr2).getD r []).getD j 0 =
      max ((arr1.getD r []).getD j 0) ((arr2.getD r []).getD j 0) ∧
    0 ≤ ((blendLighten arr1 arr2).getD r []).getD j 0 ∧
    ((blendLighten arr1 arr2).getD r []).getD j 0 ≤ 255 := by
  have hx := h1 _ (getD_getD_mem_entries hr1 hj1 0)
  have hy := h2 _ (getD_getD_mem_entries hr2 hj2 0)
  have heq := blendLighten_getD arr1 arr2 hr1 hr2 hj1 hj2
  rw [heq, blendLightenPix_eq_max hx.1 hx.2 hy.1 hy.2]
  refine ⟨rfl, le_max_of_le_left hx.1, max_le hx.2 hy.2⟩

/-- Witness for **C8** on concrete 8-bit inputs. -/
theorem blendLighten_uint8_spec_witness :
    ((blendLighten [[(7:ℤ)]] [[(200:ℤ)]]).getD 0 []).getD 0 0 = 200 := by
  have h := blendLighten_uint8_spec [[(7:ℤ)]] [[(200:ℤ)]]
    (by decide) (by decide) (r := 0) (j := 0) (by decide) (by decide)
    (by decide) (by decide)
  rw [h.1]
  decide

/-- Counterexample to **C8** as stated: for 16-bit unsigned inputs the
int16 cast of the sample 40000 wraps to -25536, and the blend returns 0
instead of the lighter sample 40000 (and in a uint8, not uint16, range). -/
theorem blendLighten_uint16_counterexample :
    blendLighten [[(40000:ℤ)]] [[0]] = [[0]] ∧
    ¬ ([[(0:ℤ)]] = [[max (40000:ℤ) 0]]) := by
  constructor
  · decide
  · decide

/-! ## Claim theorems for the intensity transforms -/

/-- **C10**: for an unsigned storage type of at least 8 bits (e.g. 16-bit
unsigned), `applyBrightnessAndContrast` keeps the image's shape and
storage type, yet every output sample is at most 255: the `[0, 255]` clip
precedes the cast-back for every bit depth, silently truncating the
dynamic range of deeper images. -/
theorem applyBrightnessAndContrast_caps_at_255 (img : Mat ℤ) (nbits : ℕ)
    (brightness contrast : ℚ) (hn : 8 ≤ nbits) :
    shape (applyBrightnessAndContrast img nbits brightness contrast) = shape img ∧
    ∀ x ∈ entries (applyBrightnessAndContrast img nbits brightness contrast),
      0 ≤ x ∧ x ≤ 255 := by
  constructor
  · rw [applyBrightnessAndContrast]
    exact shape_map _ img
  · intro x hx
    rw [applyBrightnessAndContrast, entries_map, List.mem_map] at hx
    obtain ⟨p, hp, hpx⟩ := hx
    rw [← hpx]
    exact (bcPix_range nbits hn brightness contrast p).2

/-- Witness for **C10**: a 16-bit sample 40000 comes out bounded by 255. -/
theorem applyBrightnessAndContrast_caps_at_255_witness :
    0 ≤ ((applyBrightnessAndContrast [[(40000:ℤ)]] 16 0 0).getD 0 []).getD 0 0 ∧
    ((applyBrightnessAndContrast [[(40000:ℤ)]] 16 0 0).getD 0 []).getD 0 0 ≤ 255 := by
  have h := (applyBrightnessAndContrast_caps_at_255 [[(40000:ℤ)]] 16 0 0
    (by norm_num)).2
  refine h _ (getD_getD_mem_entries ?_ ?_ 0)
  · simp [applyBrightnessAndContrast]
  · simp [applyBrightnessAndContrast]

/-- The uint8 cast of `adjustLevels` at bit depth 8 never wraps: the clip
range `[0, 255]` lies inside the uint8 range. -/
theorem alPix8_noWrap (minv gamma maxv : ℝ) (q : ℤ) :
    castUR 8 (alClipped 8 minv gamma maxv q) =
      truncR (alClipped 8 minv gamma maxv q) := by
  have hq : 0 ≤ alClipped 8 minv gamma maxv q ∧
      alClipped 8 minv gamma maxv q ≤ 2 ^ (8:ℕ) - 1 := by
    rw [alClipped]
    exact clipR_mem (by norm_num)
  have h0 := truncR_nonneg hq.1
  have hle : truncR (alClipped 8 minv gamma maxv q) ≤ 255 := by
    apply truncR_le hq.1
    have he : ((255:ℤ):ℝ) = 2 ^ (8:ℕ) - 1 := by norm_num
    rw [he]
    exact hq.2
  exact castUR_eq_truncR h0 (by omega)

/-- The cast of `applyFlat` never wraps: the clip range is exactly the
storage type's valid range. -/
theorem flatPix_noWrap (nbits : ℕ) (avg fv : ℚ) (t : ℤ) :
    flatPix nbits avg fv t =
      truncQ (clip (avg * (t : ℚ) / fv) 0 (2 ^ nbits - 1)) := by
  have hone : (1:ℚ) ≤ 2 ^ nbits := by
    have h := pow_le_pow_right₀ (by norm_num : (1:ℚ) ≤ 2) (Nat.zero_le nbits)
    simpa using h
  have hq : 0 ≤ clip (avg * (t : ℚ) / fv) 0 (2 ^ nbits - 1) ∧
      clip (avg * (t : ℚ) / fv) 0 (2 ^ nbits - 1) ≤ 2 ^ nbits - 1 :=
    clip_mem (by linarith)
  have h0 := truncQ_nonneg hq.1
  have hle : truncQ (clip (avg * (t : ℚ) / fv) 0 (2 ^ nbits - 1)) ≤
      2 ^ nbits - 1 := by
    apply truncQ_le hq.1
    have he : (((2 ^ nbits - 1 : ℤ)) : ℚ) = 2 ^ nbits - 1 := by push_cast; ring
    rw [he]
    exact hq.2
  have hpow : (0:ℤ) < 2 ^ nbits := pow_pos (by norm_num) nbits
  rw [flatPix]
  exact castU_eq_truncQ h0 (by omega)

/-- **C7** (amended): the pre-cast clip of `applyBrightnessAndContrast`
(output storage of at least 8 bits) and of `applyFlat` lies inside the
output storage type's valid range, so their cast-backs never wrap (they
coincide with plain float truncation); for `adjustLevels` the same holds
at the requested bit depth 8, whose clip range `[0, 255]` matches the
hard-coded uint8 output cast — but not at wider depths, where the claim
fails (see `adjustLevels_wraparound_counterexample`). -/
theorem clip_before_cast_no_wraparound (nbits : ℕ) (hn : 8 ≤ nbits)
    (brightness contrast : ℚ) (p : ℤ) (minv gamma maxv : ℝ) (q : ℤ)
    (avg fv : ℚ) (t : ℤ) :
    bcPix nbits brightness contrast p =
      truncQ (bcClipped brightness contrast p) ∧
    castUR 8 (alClipped 8 minv gamma maxv q) =
      truncR (alClipped 8 minv gamma maxv q) ∧
    flatPix nbits avg fv t =
      truncQ (clip (avg * (t : ℚ) / fv) 0 (2 ^ nbits - 1)) :=
  ⟨(bcPix_range nbits hn brightness contrast p).1,
   alPix8_noWrap minv gamma maxv q, flatPix_noWrap nbits avg fv t⟩

/-- Witness for **C7** at concrete inputs. -/
theorem clip_before_cast_no_wraparound_witness :
    (8:ℕ) ≤ 8 ∧
    (bcPix 8 0 0 10 = truncQ (bcClipped 0 0 10) ∧
     castUR 8 (alClipped 8 0 1 255 10) = truncR (alClipped 8 0 1 255 10) ∧
     flatPix 8 1 1 10 = truncQ (clip (1 * ((10:ℤ) : ℚ) / 1) 0 (2 ^ (8:ℕ) - 1))) :=
  ⟨by norm_num, clip_before_cast_no_wraparound 8 (by norm_num) 0 0 10 0 1 255 10 1 1 10⟩

/-- Counterexample to **C7** as stated: at bit depth 16 `adjustLevels`
clips to `[0, 65535]` but casts with `astype(np.uint8)`, so the sample
300 — fixed by the identity level mapping `minv = 0`, `gamma = 1`,
`maxv = 65535` and untouched by the clip — wraps to `300 % 256 = 44`
instead of being clipped to the output type's range. -/
theorem adjustLevels_wraparound_counterexample :
    adjustLevels [[(300:ℤ)]] (some 0) (some 1) (some 65535) 16 = [[44]] ∧
    truncR (alClipped 16 0 1 65535 300) = 300 ∧ ((44:ℤ)) ≠ 300 := by
  have hval : alClipped 16 0 1 65535 300 = 300 := by
    rw [alClipped, show (1:ℝ)/1 = 1 by norm_num, Real.rpow_one, clipR]
    norm_num
  have htr : truncR (alClipped 16 0 1 65535 300) = 300 := by
    rw [hval, truncR, if_pos (by norm_num : (0:ℝ) ≤ 300)]
    rw [show ((300:ℝ)) = ((300:ℤ):ℝ) by norm_num, Int.floor_intCast]
  refine ⟨?_, htr, by decide⟩
  have hcast : castUR 8 (alClipped 16 0 1 65535 300) = 44 := by
    rw [castUR, htr]
    decide
  simp only [adjustLevels, Option.getD_some, List.map_cons, List.map_nil]
  rw [hcast]

/-! ## Claim theorems for the flat field -/

/-- **C4**: `loadFlat` stores the median of the float reference image as
`flat_avg` and replaces every sample strictly below `flat_avg / 2` with
`flat_avg`; hence no sample of the constructed `flat_img` is below
`flat_avg / 2`.  (Nothing ever writes to a constructed `FlatStruct`
afterwards — `applyFlat` only reads it — so the invariant is preserved for
the structure's whole lifetime.) -/
theorem loadFlat_invariant (raw : Mat ℕ) :
    (loadFlat raw).flat_avg =
      median (entries (raw.map (List.map fun x : ℕ => (x : ℚ)))) ∧
    (∀ r j, (hr : r < raw.length) → (hj : j < (raw.getD r []).length) →
      ((loadFlat raw).flat_img.getD r []).getD j 0 =
        if (((raw.getD r []).getD j 0 : ℕ) : ℚ) < (loadFlat raw).flat_avg / 2
        then (loadFlat raw).flat_avg
        else (((raw.getD r []).getD j 0 : ℕ) : ℚ)) ∧
    ∀ x ∈ entries (loadFlat raw).flat_img,
      (loadFlat raw).flat_avg / 2 ≤ x := by
  have havg0 : 0 ≤ median (entries (raw.map (List.map fun x : ℕ => (x : ℚ)))) := by
    apply median_nonneg
    intro y hy
    rw [entries_map, List.mem_map] at hy
    obtain ⟨z, hz, hzy⟩ := hy
    rw [← hzy]
    exact_mod_cast Nat.zero_le z
  refine ⟨rfl, ?_, ?_⟩
  · intro r j hr hj
    simp only [loadFlat]
    have hrF : r < (raw.map (List.map fun x : ℕ => (x : ℚ))).length := by
      rwa [List.length_map]
    have heF : (raw.map (List.map fun x : ℕ => (x : ℚ))).getD r [] =
        List.map (fun x : ℕ => (x : ℚ)) (raw.getD r []) := by
      rw [List.getD_eq_getElem _ _ hrF]
      simp only [List.getElem_map]
      rw [List.getD_eq_getElem _ _ hr]
    have hjF : j < ((raw.map (List.map fun x : ℕ => (x : ℚ))).getD r []).length := by
      rw [heF, List.length_map]
      exact hj
    rw [map_map_getD _ _ 0 0 hrF hjF, map_map_getD _ _ 0 0 hr hj]
  · intro x hx
    simp only [loadFlat] at hx ⊢
    rw [entries_map, List.mem_map] at hx
    obtain ⟨y, hy, hyx⟩ := hx
    rw [← hyx]
    split
    · linarith
    · next hcond => exact le_of_not_lt hcond

/-- Witness for **C4**: a flat of value 100 with one sample 10 below half
the median 100; the invariant holds at the replaced sample. -/
theorem loadFlat_invariant_witness :
    (loadFlat [[100, 10], [100, 100]]).flat_avg / 2 ≤
      ((loadFlat [[100, 10], [100, 100]]).flat_img.getD 0 []).getD 1 0 := by
  apply (loadFlat_invariant [[100, 10], [100, 100]]).2.2
  apply getD_getD_mem_entries
  · simp [loadFlat]
  · simp [loadFlat]

/-- **C5** (amended): when the shapes match, `applyFlat` computes each
sample as `flat_avg * img / flat_img` in float, clipped to the valid range
of the image's storage type and cast back to it; when additionally every
flat sample equals `flat_avg` and `flat_avg ≠ 0`, the output equals the
input image.  (As stated — without excluding `flat_avg = 0` — the identity
clause fails: see `applyFlat_zero_avg_counterexample`.) -/
theorem applyFlat_spec (img : Mat ℤ) (nbits : ℕ) (fs : FlatStruct) (cols : ℕ)
    (hshape : shape img = shape fs.flat_img)
    (hri : Rect img cols) (hrf : Rect fs.flat_img cols) :
    (∀ r j, r < img.length → j < cols →
      ((applyFlat img nbits fs).getD r []).getD j 0 =
        flatPix nbits fs.flat_avg ((fs.flat_img.getD r []).getD j 0)
          ((img.getD r []).getD j 0)) ∧
    ((∀ fv ∈ entries fs.flat_img, fv = fs.flat_avg) → fs.flat_avg ≠ 0 →
      (∀ p ∈ entries img, 0 ≤ p ∧ p ≤ 2 ^ nbits - 1) →
      applyFlat img nbits fs = img) := by
  have hlen : img.length = fs.flat_img.length := congrArg Prod.fst hshape
  have happ : applyFlat img nbits fs =
      List.zipWith (List.zipWith fun p fv => flatPix nbits fs.flat_avg fv p)
        img fs.flat_img := by
    rw [applyFlat, if_neg (by simp [hshape])]
  constructor
  · intro r j hr hj
    rw [happ]
    have hr2 : r < fs.flat_img.length := hlen ▸ hr
    have hj1 : j < (img.getD r []).length := by
      rw [hri _ (getD_mem hr [])]
      exact hj
    have hj2 : j < (fs.flat_img.getD r []).length := by
      rw [hrf _ (getD_mem hr2 [])]
      exact hj
    exact zipWith_zipWith_getD _ img fs.flat_img 0 0 0 hr hr2 hj1 hj2
  · intro hflat hnz hrange
    rw [happ]
    apply zipWith_eq_left _ _ _ hlen
    intro i h1 h2
    apply zipWith_eq_left
    · rw [hri _ (List.getElem_mem h1), hrf _ (List.getElem_mem h2)]
    · intro k k1 k2
      have hfv : fs.flat_img[i][k] = fs.flat_avg :=
        hflat _ (mem_entries (List.getElem_mem h2) (List.getElem_mem k2))
      have hp := hrange _ (mem_entries (List.getElem_mem h1) (List.getElem_mem k1))
      rw [hfv]
      exact flatPix_id hnz hp.1 hp.2

/-- Witness for **C5**: a uniform flat of value 100 (average 100) applied
to a uniform image of 50s returns the image unchanged. -/
theorem applyFlat_spec_witness :
    applyFlat [[(50:ℤ), 50], [50, 50]] 8 ⟨[[100, 100], [100, 100]], 100⟩ =
      [[(50:ℤ), 50], [50, 50]] := by
  apply (applyFlat_spec [[(50:ℤ), 50], [50, 50]] 8
    ⟨[[100, 100], [100, 100]], 100⟩ 2 (by decide) (by decide) (by decide)).2
  · decide
  · norm_num
  · decide

/-- Counterexample to **C5** as stated: a flat whose samples all equal its
`flat_avg = 0` (an all-zero reference) does not reproduce the input.  In
the model the total division gives `0 * 5 / 0 = 0` (numpy produces `nan`
from the invalid division and likewise does not return the input), so the
output is `[[0]] ≠ [[5]]`. -/
theorem applyFlat_zero_avg_counterexample :
    (∀ fv ∈ entries (FlatStruct.mk [[(0:ℚ)]] 0).flat_img,
      fv = (FlatStruct.mk [[(0:ℚ)]] 0).flat_avg) ∧
    shape [[(5:ℤ)]] = shape (FlatStruct.mk [[(0:ℚ)]] 0).flat_img ∧
    applyFlat [[(5:ℤ)]] 8 (FlatStruct.mk [[(0:ℚ)]] 0) = [[0]] ∧
    [[(0:ℤ)]] ≠ [[(5:ℤ)]] := by
  refine ⟨by decide, by decide, ?_, by decide⟩
  rw [applyFlat, if_neg (by decide)]
  show [[flatPix 8 0 0 (5:ℤ)]] = [[0]]
  have hpix : flatPix 8 0 0 (5:ℤ) = 0 := by
    rw [flatPix]
    have hc : clip ((0:ℚ) * ((5:ℤ):ℚ) / 0) 0 (2 ^ (8:ℕ) - 1) = 0 := by
      rw [clip]
      norm_num
    have ht : truncQ (0:ℚ) = 0 := by simpa using truncQ_intCast 0
    rw [hc, castU, ht]
    decide
  rw [hpix]

/-- **C6**: when the target image's shape differs from the flat's,
`applyFlat` returns the target unchanged (and, being a pure function, it
neither raises an error nor modifies the flat structure). -/
theorem applyFlat_shape_mismatch (img : Mat ℤ) (nbits : ℕ) (fs : FlatStruct)
    (h : shape img ≠ shape fs.flat_img) : applyFlat img nbits fs = img := by
  rw [applyFlat, if_pos h]

/-- Witness for **C6**: a 1x1 image against a 1x2 flat. -/
theorem applyFlat_shape_mismatch_witness :
    applyFlat [[(7:ℤ)]] 8 ⟨[[1, 2]], 1⟩ = [[(7:ℤ)]] :=
  applyFlat_shape_mismatch [[(7:ℤ)]] 8 ⟨[[1, 2]], 1⟩ (by decide)

/-! ## Claim theorems for gamma correction -/

/-- **C9** (amended): `gammaCorrection` clamps the intensity at 0, forms
`x = (i - bp)/(wp - bp)`, and returns `bp + (wp - bp) * x^(1/g)` when
`x > 0` and exactly `bp` otherwise; provided `0 ≤ bp < wp`, every input at
or below the black point maps to `bp`; and with `bp = 0`, `wp = 255`,
`g = 1` it is the identity on every nonnegative input.  (As stated — for
arbitrary `wp ≠ bp` — the at-or-below-black-point clause fails: see
`gammaCorrection_below_bp_counterexample`.) -/
theorem gammaCorrection_spec (i g bp wp : ℝ) (_hg : 0 < g) (_hne : wp ≠ bp) :
    gammaCorrection i g bp wp =
      (if 0 < ((if i < 0 then 0 else i) - bp) / (wp - bp) then
        bp + (wp - bp) * (((if i < 0 then 0 else i) - bp) / (wp - bp)) ^ (1 / g)
      else bp) ∧
    (0 ≤ bp → bp < wp → i ≤ bp → gammaCorrection i g bp wp = bp) ∧
    (0 ≤ i → gammaCorrection i 1 0 255 = i) := by
  refine ⟨rfl, ?_, ?_⟩
  · intro hbp hlt hle
    have hclamp : (if i < 0 then (0:ℝ) else i) ≤ bp := by
      split
      · exact hbp
      · exact hle
    have hx : ((if i < 0 then (0:ℝ) else i) - bp) / (wp - bp) ≤ 0 :=
      div_nonpos_iff.2 (Or.inr ⟨by linarith, by linarith⟩)
    rw [gammaCorrection, if_neg (not_lt.2 hx)]
  · intro hi
    rw [gammaCorrection]
    simp only [if_neg (not_lt.2 hi)]
    rcases eq_or_lt_of_le hi with h0 | h0
    · rw [← h0]
      norm_num
    · have hxpos : 0 < (i - 0) / ((255:ℝ) - 0) := by
        rw [sub_zero, sub_zero]
        exact div_pos h0 (by norm_num)
      rw [if_pos hxpos, show (1:ℝ)/1 = 1 by norm_num, Real.rpow_one]
      field_simp

/-- Witness for **C9**: the identity at `i = 100` and the black-point
clause at `i = 3 ≤ bp = 10`. -/
theorem gammaCorrection_spec_witness :
    gammaCorrection 100 1 0 255 = 100 ∧ gammaCorrection 3 2 10 255 = 10 := by
  constructor
  · exact (gammaCorrection_spec 100 1 0 255 (by norm_num) (by norm_num)).2.2
      (by norm_num)
  · exact (gammaCorrection_spec 3 2 10 255 (by norm_num) (by norm_num)).2.1
      (by norm_num) (by norm_num) (by norm_num)

/-- Counterexample to **C9** as stated: with `wp = 5 < bp = 10` (which the
claim's hypotheses `wp ≠ bp`, `g > 0` allow), the input `i = 5` is at or
below the black point yet maps to `5 ≠ bp`: the normalized value
`(5 - 10)/(5 - 10) = 1` is positive, so the gamma branch fires. -/
theorem gammaCorrection_below_bp_counterexample :
    (0:ℝ) < 1 ∧ (5:ℝ) ≠ 10 ∧ (5:ℝ) ≤ 10 ∧ gammaCorrection 5 1 10 5 = 5 := by
  refine ⟨by norm_num, by norm_num, by norm_num, ?_⟩
  rw [gammaCorrection]
  rw [show (if (5:ℝ) < 0 then (0:ℝ) else 5) = 5 by norm_num]
  rw [show ((5:ℝ) - 10) / (5 - 10) = 1 by norm_num]
  rw [if_pos (by norm_num : (0:ℝ) < 1), Real.one_rpow]
  norm_num

end Image
